import Mathlib

/-!
Verification of the `vm` repository (a small bytecode machine with an
assembler, a binary codec, an interpreter and a JIT front end) against its
natural-language specification.

The Rust sources are shallowly embedded: machine integers (`u8`, `u32`,
`u64`) become `Nat` with explicit range side conditions where overflow
matters, fallible code (panics, `unwrap`) becomes `Except`/`Option`
results, and the stateful loops become explicit state-passing recursion.
-/

namespace VM

/-! ## Bytecode (src/bytecode.rs)

`Inst` mirrors `enum Inst`.  Register ids are `u8` in Rust; here they are
`Nat` together with well-formedness bounds where a claim needs them.
Immediates and branch targets are `u32`, likewise `Nat` with bounds. -/

inductive Inst where
  | Mov (v1 v2 : Nat)
  | Movi (v : Nat) (imm : Nat)
  | Ldai (imm : Nat)
  | Lda (v : Nat)
  | Sta (v : Nat)
  | Add (v : Nat)
  | Dec (v : Nat)
  | Bne (v1 v2 : Nat) (imm : Nat)
  | Print
deriving DecidableEq

/-- `Inst::is_branch` from src/bytecode.rs. -/
def Inst.is_branch : Inst → Bool
  | .Bne _ _ _ => true
  | _ => false

/-- `TryInto<u8> for Inst` from src/bytecode.rs: the opcode byte. -/
def Inst.opcode : Inst → Nat
  | .Mov _ _ => 0
  | .Movi _ _ => 1
  | .Ldai _ => 2
  | .Lda _ => 3
  | .Sta _ => 4
  | .Add _ => 5
  | .Dec _ => 6
  | .Bne _ _ _ => 7
  | .Print => 8

/-- An instruction is well formed when its register ids fit in `u8` and its
immediate / branch target fits in `u32` (structurally guaranteed in Rust). -/
def Inst.wf : Inst → Prop
  | .Mov v1 v2 => v1 < 256 ∧ v2 < 256
  | .Movi v imm => v < 256 ∧ imm < 4294967296
  | .Ldai imm => imm < 4294967296
  | .Lda v => v < 256
  | .Sta v => v < 256
  | .Add v => v < 256
  | .Dec v => v < 256
  | .Bne v1 v2 imm => v1 < 256 ∧ v2 < 256 ∧ imm < 4294967296
  | .Print => True

instance (i : Inst) : Decidable i.wf := by
  cases i <;> simp only [Inst.wf] <;> infer_instance

/-! ## Binary codec

Encoder: `write_inst`/`write_imm` from src/assembler.rs.  `write_imm` dumps
the four raw bytes of the `u32` (native order; little-endian on the targets
this program runs on, and the order `fetch_insts` decodes with
`u32::from_le_bytes`). -/

/-- The four little-endian bytes of a `u32`, as written by `write_imm`. -/
def leBytes (imm : Nat) : List Nat :=
  [imm % 256, imm / 256 % 256, imm / 65536 % 256, imm / 16777216 % 256]

/-- `u32::from_le_bytes` on four bytes. -/
def fromLe (b0 b1 b2 b3 : Nat) : Nat :=
  b0 + 256 * b1 + 65536 * b2 + 16777216 * b3

/-- The operand bytes written by the `match inst` in `write_inst`. -/
def operandBytes : Inst → List Nat
  | .Mov v1 v2 => [v1, v2]
  | .Movi v imm => v :: leBytes imm
  | .Ldai imm => leBytes imm
  | .Lda v => [v]
  | .Sta v => [v]
  | .Add v => [v]
  | .Dec v => [v]
  | .Bne v1 v2 imm => v1 :: v2 :: leBytes imm
  | .Print => []

/-- `write_inst` from src/assembler.rs: the opcode byte obtained through
`TryInto<u8>`, then the operands. -/
def write_inst (i : Inst) : List Nat := i.opcode :: operandBytes i

/-- The assembler's output loop: each instruction encoded in order,
concatenated (`for inst in instructions { write_inst(...) }`). -/
def encode : List Inst → List Nat
  | [] => []
  | i :: rest => write_inst i ++ encode rest

/-- The two failure modes of the decoder `fetch_insts` in src/vm.rs.
In the Rust source both are process-aborting panics: `truncated` models the
`iter.next().unwrap()` panic when the stream ends mid-operand, and
`invalidOpcode` models the `panic!("Invalid opcode: ...")` arm. -/
inductive FetchErr where
  | truncated
  | invalidOpcode (op : Nat)
deriving DecidableEq

/-- `fetch_insts` from src/vm.rs: decode a byte stream into instructions.
The Rust loop dispatches on the opcode byte with an if-chain and pulls the
operand bytes with `iter.next().unwrap()`; here each complete instruction
is one pattern arm, and the final arm covers the two failure paths of the
source: an opcode in 0–8 whose operands are cut short (`unwrap` panic on
`None`, modelled `truncated`) and an opcode above 8
(`panic!("Invalid opcode")`, modelled `invalidOpcode`). -/
def fetch_insts : List Nat → Except FetchErr (List Inst)
  | [] => .ok []
  | 0 :: v1 :: v2 :: rest => (fetch_insts rest).map (fun l => .Mov v1 v2 :: l)
  | 1 :: v :: b0 :: b1 :: b2 :: b3 :: rest =>
      (fetch_insts rest).map (fun l => .Movi v (fromLe b0 b1 b2 b3) :: l)
  | 2 :: b0 :: b1 :: b2 :: b3 :: rest =>
      (fetch_insts rest).map (fun l => .Ldai (fromLe b0 b1 b2 b3) :: l)
  | 3 :: v :: rest => (fetch_insts rest).map (fun l => .Lda v :: l)
  | 4 :: v :: rest => (fetch_insts rest).map (fun l => .Sta v :: l)
  | 5 :: v :: rest => (fetch_insts rest).map (fun l => .Add v :: l)
  | 6 :: v :: rest => (fetch_insts rest).map (fun l => .Dec v :: l)
  | 7 :: v1 :: v2 :: b0 :: b1 :: b2 :: b3 :: rest =>
      (fetch_insts rest).map (fun l => .Bne v1 v2 (fromLe b0 b1 b2 b3) :: l)
  | 8 :: rest => (fetch_insts rest).map (fun l => .Print :: l)
  | op :: _ => if op ≤ 8 then .error .truncated else .error (.invalidOpcode op)

theorem fromLe_leBytes (imm : Nat) (h : imm < 4294967296) :
    fromLe (imm % 256) (imm / 256 % 256) (imm / 65536 % 256) (imm / 16777216 % 256) = imm := by
  simp only [fromLe]
  omega

/-! ## Basic-block leader analysis (src/jit.rs) -/

/-- Contribution of loop index `i` in `find_leaders`: a `Bne` pushes its
target, then `i+1` when `i + 1 < bc.len()`; other instructions push
nothing. -/
def leaderContrib (bc : List Inst) (i : Nat) : List Nat :=
  match bc[i]? with
  | some (.Bne _ _ imm) => imm :: (if i + 1 < bc.length then [i + 1] else [])
  | _ => []

/-- `find_leaders` from src/jit.rs: empty input gives `[]`; otherwise `0`
is pushed and the `for i in 1..bc.len()` loop appends each index's
contribution in order (`List.range' 1 (bc.length - 1)` is exactly the
index sequence `1, ..., bc.length - 1` of that loop). -/
def find_leaders (bc : List Inst) : List Nat :=
  if bc.isEmpty then []
  else 0 :: (List.range' 1 (bc.length - 1)).flatMap (leaderContrib bc)

/-! ## Claims about the codec -/

theorem fetch_cons_mov (v1 v2 : Nat) (bs : List Nat) :
    fetch_insts (0 :: v1 :: v2 :: bs) =
      (fetch_insts bs).map (fun l => Inst.Mov v1 v2 :: l) := by simp [fetch_insts]

theorem fetch_cons_movi (v b0 b1 b2 b3 : Nat) (bs : List Nat) :
    fetch_insts (1 :: v :: b0 :: b1 :: b2 :: b3 :: bs) =
      (fetch_insts bs).map (fun l => Inst.Movi v (fromLe b0 b1 b2 b3) :: l) := by simp [fetch_insts]

theorem fetch_cons_ldai (b0 b1 b2 b3 : Nat) (bs : List Nat) :
    fetch_insts (2 :: b0 :: b1 :: b2 :: b3 :: bs) =
      (fetch_insts bs).map (fun l => Inst.Ldai (fromLe b0 b1 b2 b3) :: l) := by simp [fetch_insts]

theorem fetch_cons_lda (v : Nat) (bs : List Nat) :
    fetch_insts (3 :: v :: bs) =
      (fetch_insts bs).map (fun l => Inst.Lda v :: l) := by simp [fetch_insts]

theorem fetch_cons_sta (v : Nat) (bs : List Nat) :
    fetch_insts (4 :: v :: bs) =
      (fetch_insts bs).map (fun l => Inst.Sta v :: l) := by simp [fetch_insts]

theorem fetch_cons_add (v : Nat) (bs : List Nat) :
    fetch_insts (5 :: v :: bs) =
      (fetch_insts bs).map (fun l => Inst.Add v :: l) := by simp [fetch_insts]

theorem fetch_cons_dec (v : Nat) (bs : List Nat) :
    fetch_insts (6 :: v :: bs) =
      (fetch_insts bs).map (fun l => Inst.Dec v :: l) := by simp [fetch_insts]

theorem fetch_cons_bne (v1 v2 b0 b1 b2 b3 : Nat) (bs : List Nat) :
    fetch_insts (7 :: v1 :: v2 :: b0 :: b1 :: b2 :: b3 :: bs) =
      (fetch_insts bs).map (fun l => Inst.Bne v1 v2 (fromLe b0 b1 b2 b3) :: l) := by simp [fetch_insts]

theorem fetch_cons_print (bs : List Nat) :
    fetch_insts (8 :: bs) =
      (fetch_insts bs).map (fun l => Inst.Print :: l) := by simp [fetch_insts]

/-- C1: for every instruction sequence built from the nine instruction
forms with register ids in 0–255 and 32-bit immediates/branch targets,
decoding the byte stream produced by encoding the sequence yields the
original sequence. -/
theorem decode_encode_roundtrip (l : List Inst) (h : ∀ i ∈ l, i.wf) :
    fetch_insts (encode l) = .ok l := by
  induction l with
  | nil => rfl
  | cons i rest ih =>
    have hi : i.wf := h i (by simp)
    have ih2 : fetch_insts (encode rest) = .ok rest := ih fun j hj => h j (by simp [hj])
    cases i with
    | Mov v1 v2 =>
        rw [show encode (Inst.Mov v1 v2 :: rest) = 0 :: v1 :: v2 :: encode rest from rfl,
          fetch_cons_mov, ih2]; rfl
    | Movi v imm =>
        obtain ⟨-, himm⟩ := hi
        rw [show encode (Inst.Movi v imm :: rest) =
              1 :: v :: (imm % 256) :: (imm / 256 % 256) :: (imm / 65536 % 256) ::
                (imm / 16777216 % 256) :: encode rest from rfl,
          fetch_cons_movi, fromLe_leBytes imm himm, ih2]; rfl
    | Ldai imm =>
        rw [show encode (Inst.Ldai imm :: rest) =
              2 :: (imm % 256) :: (imm / 256 % 256) :: (imm / 65536 % 256) ::
                (imm / 16777216 % 256) :: encode rest from rfl,
          fetch_cons_ldai, fromLe_leBytes imm hi, ih2]; rfl
    | Lda v =>
        rw [show encode (Inst.Lda v :: rest) = 3 :: v :: encode rest from rfl,
          fetch_cons_lda, ih2]; rfl
    | Sta v =>
        rw [show encode (Inst.Sta v :: rest) = 4 :: v :: encode rest from rfl,
          fetch_cons_sta, ih2]; rfl
    | Add v =>
        rw [show encode (Inst.Add v :: rest) = 5 :: v :: encode rest from rfl,
          fetch_cons_add, ih2]; rfl
    | Dec v =>
        rw [show encode (Inst.Dec v :: rest) = 6 :: v :: encode rest from rfl,
          fetch_cons_dec, ih2]; rfl
    | Bne v1 v2 imm =>
        obtain ⟨-, -, himm⟩ := hi
        rw [show encode (Inst.Bne v1 v2 imm :: rest) =
              7 :: v1 :: v2 :: (imm % 256) :: (imm / 256 % 256) :: (imm / 65536 % 256) ::
                (imm / 16777216 % 256) :: encode rest from rfl,
          fetch_cons_bne, fromLe_leBytes imm himm, ih2]; rfl
    | Print =>
        rw [show encode (Inst.Print :: rest) = 8 :: encode rest from rfl,
          fetch_cons_print, ih2]; rfl

/-- Witness for C1 at the spec's scenario program
`movi v0, 5 / lda v0 / print`. -/
theorem decode_encode_roundtrip_witness :
    (∀ i ∈ [Inst.Movi 0 5, Inst.Lda 0, Inst.Print], i.wf) ∧
    fetch_insts (encode [Inst.Movi 0 5, Inst.Lda 0, Inst.Print]) =
      .ok [Inst.Movi 0 5, Inst.Lda 0, Inst.Print] :=
  ⟨by decide, decode_encode_roundtrip _ (by decide)⟩

/-- C2: evaluation of the decoder at the two failure inputs.  In the
embedding the `unwrap`/`panic!` aborts of `fetch_insts` (src/vm.rs
lines 23–65) are modelled as `Except.error`; the Rust code itself panics
(aborts the process) on these inputs instead of returning a structured
error value: decoding the truncated `movi` stream `[1, 0, 5, 0, 0]`
(final immediate byte missing) hits `iter.next().unwrap()` on `None`,
and opcode byte 9 hits `panic!("Invalid opcode: 9")`. -/
theorem fetch_insts_failure_eval :
    fetch_insts [1, 0, 5, 0, 0] = .error .truncated ∧
    fetch_insts [9] = .error (.invalidOpcode 9) :=
  ⟨rfl, rfl⟩

/-! ## Claims about the leader analysis -/

/-- Counterexample to C3: the `for i in 1..bc.len()` loop of
`find_leaders` never examines index 0, so the branch target 5 of a `Bne`
at index 0 is not in the produced leader list. -/
theorem find_leaders_misses_branch_at_zero :
    find_leaders [Inst.Bne 0 0 5] = [0] ∧
    ¬ (5 ∈ find_leaders [Inst.Bne 0 0 5]) := by
  constructor
  · rfl
  · decide

/-- C3 (amended): for every non-empty program the leader list contains
index 0, and for every `Bne` at an index `i ≥ 1` it contains that
branch's target and `i + 1` whenever `i + 1` is in range; a `Bne` at
index 0 is skipped by the loop and contributes nothing beyond the
always-present leader 0. -/
theorem find_leaders_complete (bc : List Inst) (hne : bc ≠ []) :
    0 ∈ find_leaders bc ∧
    ∀ i v1 v2 t, 1 ≤ i → bc[i]? = some (.Bne v1 v2 t) →
      t ∈ find_leaders bc ∧ (i + 1 < bc.length → i + 1 ∈ find_leaders bc) := by
  have hbc : bc.isEmpty = false := by
    cases bc with
    | nil => exact absurd rfl hne
    | cons a l => rfl
  constructor
  · simp [find_leaders, hbc]
  · intro i v1 v2 t h1 hget
    have hilt : i < bc.length := by
      by_contra hcon
      rw [List.getElem?_eq_none (by omega)] at hget
      exact Option.noConfusion hget
    have hmem : i ∈ List.range' 1 (bc.length - 1) := by
      rw [List.mem_range']
      exact ⟨i - 1, by omega, by omega⟩
    have hcontrib : leaderContrib bc i =
        t :: (if i + 1 < bc.length then [i + 1] else []) := by
      simp [leaderContrib, hget]
    constructor
    · simp only [find_leaders, hbc, Bool.false_eq_true, if_false, List.mem_cons]
      right
      rw [List.mem_flatMap]
      exact ⟨i, hmem, by simp [hcontrib]⟩
    · intro hlt
      simp only [find_leaders, hbc, Bool.false_eq_true, if_false, List.mem_cons]
      right
      rw [List.mem_flatMap]
      exact ⟨i, hmem, by simp [hcontrib, hlt]⟩

/-- Witness for C3 (amended): in `[Print, Bne 0 0 0, Print]` the branch
at index 1 puts its target 0 and the fall-through 2 into the leaders. -/
theorem find_leaders_complete_witness :
    ([Inst.Print, Inst.Bne 0 0 0, Inst.Print] ≠ ([] : List Inst)) ∧
    (0 ∈ find_leaders [Inst.Print, Inst.Bne 0 0 0, Inst.Print]) ∧
    (0 ∈ find_leaders [Inst.Print, Inst.Bne 0 0 0, Inst.Print] ∧
      (1 + 1 < ([Inst.Print, Inst.Bne 0 0 0, Inst.Print] : List Inst).length →
        1 + 1 ∈ find_leaders [Inst.Print, Inst.Bne 0 0 0, Inst.Print])) := by
  refine ⟨by decide, ?_⟩
  have h := find_leaders_complete [Inst.Print, Inst.Bne 0 0 0, Inst.Print] (by decide)
  exact ⟨h.1, h.2 1 0 0 0 (by decide) (by decide)⟩

/-- C4: `find_leaders` performs no deduplication and no sort; on
`[Print, Bne 0 0 0]` it returns `[0, 0]`, which has a duplicate and is
not strictly ascending.  (The spec's dedup+sort requirement has no
counterpart in src/jit.rs — the raw pushed list is returned as is.) -/
theorem find_leaders_not_deduped :
    find_leaders [Inst.Print, Inst.Bne 0 0 0] = [0, 0] ∧
    ¬ (find_leaders [Inst.Print, Inst.Bne 0 0 0]).Nodup ∧
    ¬ List.Sorted (fun a b => a < b) (find_leaders [Inst.Print, Inst.Bne 0 0 0]) := by
  refine ⟨rfl, by decide, by decide⟩

/-! ## Interpreter (`interpret` in src/vm.rs)

The loop state is the instruction pointer `i`, the accumulator `acc` and
the 256-slot `u64` register file `regs` (a total function here; every
access in the source is through a `u8` index, so 0–255).  One loop
iteration becomes `step`.  `u64` arithmetic is checked: `Dec` on a zero
register and `Add` past `2^64 - 1` are the two overflow sites — in the
Rust source these panic in checked builds — and the fetch `insts[i]` with
`i` beyond the vector panics out of bounds; all three are modelled as
`error` outcomes.  `Print` writes to stdout and touches no loop state. -/

structure VMState where
  i : Nat
  acc : Nat
  regs : Nat → Nat

/-- Write register `k`. -/
def updReg (regs : Nat → Nat) (k x : Nat) : Nat → Nat :=
  fun n => if n = k then x else regs n

inductive RunErr where
  | ipOutOfBounds
  | underflow
  | overflow

/-- Outcome of one iteration of the `interpret` loop. -/
inductive StepRes where
  | halt
  | error (e : RunErr)
  | next (s : VMState)

/-- One iteration of the `loop` in `interpret` (src/vm.rs lines 77–131):
break when `i == insts.len()`, otherwise fetch `insts[i]` and execute. -/
def step (insts : List Inst) (s : VMState) : StepRes :=
  if s.i = insts.length then .halt
  else
    match insts[s.i]? with
    | none => .error .ipOutOfBounds
    | some inst =>
      match inst with
      | .Mov v1 v2 => .next ⟨s.i + 1, s.acc, updReg s.regs v1 (s.regs v2)⟩
      | .Movi v imm => .next ⟨s.i + 1, s.acc, updReg s.regs v imm⟩
      | .Ldai imm => .next ⟨s.i + 1, imm, s.regs⟩
      | .Lda v => .next ⟨s.i + 1, s.regs v, s.regs⟩
      | .Sta v => .next ⟨s.i + 1, s.acc, updReg s.regs v s.acc⟩
      | .Add v =>
          if s.acc + s.regs v < 18446744073709551616
          then .next ⟨s.i + 1, s.acc + s.regs v, s.regs⟩
          else .error .overflow
      | .Dec v =>
          if s.regs v = 0 then .error .underflow
          else .next ⟨s.i + 1, s.acc, updReg s.regs v (s.regs v - 1)⟩
      | .Bne v1 v2 imm =>
          if s.regs v1 ≠ s.regs v2 then .next ⟨imm, s.acc, s.regs⟩
          else .next ⟨s.i + 1, s.acc, s.regs⟩
      | .Print => .next ⟨s.i + 1, s.acc, s.regs⟩

/-- The initial interpreter state: `i = 0`, `acc = 0`, all 256 registers
zero. -/
def initState : VMState := ⟨0, 0, fun _ => 0⟩

/-- C6: executing `Dec v` when `regs[v] > 0` stores `regs[v] - 1` and
advances the instruction pointer by exactly one; executing it when
`regs[v] = 0` is a fatal error (`regs[*v] - 1` underflows the unsigned
`u64`, a panic in checked builds), not a silent wraparound to
`2^64 - 1`. -/
theorem dec_semantics (insts : List Inst) (s : VMState) (v : Nat)
    (hfetch : insts[s.i]? = some (.Dec v)) :
    (s.regs v ≠ 0 →
      step insts s = .next ⟨s.i + 1, s.acc, updReg s.regs v (s.regs v - 1)⟩) ∧
    (s.regs v = 0 → step insts s = .error .underflow) := by
  have hlt : s.i < insts.length := by
    by_contra hcon
    rw [List.getElem?_eq_none (by omega)] at hfetch
    exact Option.noConfusion hfetch
  have hne : s.i ≠ insts.length := by omega
  constructor
  · intro hz
    simp [step, hne, hfetch, hz]
  · intro hz
    simp [step, hne, hfetch, hz]

/-- Witness for C6 on the one-instruction program `[Dec 0]`: from a state
with `regs[0] = 1` the register becomes 0 and the pointer moves to 1;
from the zero-initialized state it is the underflow error. -/
theorem dec_semantics_witness :
    ([Inst.Dec 0] : List Inst)[(0 : Nat)]? = some (Inst.Dec 0) ∧
    step [Inst.Dec 0] ⟨0, 0, fun _ => 1⟩ =
      .next ⟨1, 0, updReg (fun _ => 1) 0 ((fun _ : Nat => (1 : Nat)) 0 - 1)⟩ ∧
    step [Inst.Dec 0] initState = .error .underflow := by
  refine ⟨rfl, ?_, ?_⟩
  · exact (dec_semantics [Inst.Dec 0] ⟨0, 0, fun _ => 1⟩ 0 rfl).1 (by decide)
  · exact (dec_semantics [Inst.Dec 0] initState 0 rfl).2 rfl

/-- C10: the loop breaks (halts normally) exactly when the instruction
pointer equals the program length; and when a `Bne` takes its branch to a
target strictly greater than the program length, the branch step itself
succeeds but the following fetch `insts[i]` indexes out of bounds and
execution dies instead of halting. -/
theorem halt_iff_ip_eq_length (insts : List Inst) (s : VMState) :
    (step insts s = .halt ↔ s.i = insts.length) ∧
    (∀ v1 v2 t, insts[s.i]? = some (.Bne v1 v2 t) → s.regs v1 ≠ s.regs v2 →
      insts.length < t →
      step insts s = .next ⟨t, s.acc, s.regs⟩ ∧
      step insts ⟨t, s.acc, s.regs⟩ = .error .ipOutOfBounds) := by
  constructor
  · constructor
    · intro hh
      by_contra hne
      rw [step, if_neg hne] at hh
      rcases hget : insts[s.i]? with - | inst
      · rw [hget] at hh; exact StepRes.noConfusion hh
      · rw [hget] at hh
        cases inst <;> simp only [] at hh <;>
          first
            | exact StepRes.noConfusion hh
            | (split at hh <;> exact StepRes.noConfusion hh)
    · intro he
      rw [step, if_pos he]
  · intro v1 v2 t hfetch hneq hlen
    have hne : s.i ≠ insts.length := by
      by_contra hcon
      rw [List.getElem?_eq_none (by omega)] at hfetch
      exact Option.noConfusion hfetch
    refine ⟨by simp [step, hne, hfetch, hneq], ?_⟩
    have ht : t ≠ insts.length := by omega
    have hnone : insts[t]? = none := List.getElem?_eq_none (by omega)
    simp [step, ht, hnone]

/-- Witness for C10 on `[Bne 0 1 5]` with `regs[0] = 0 ≠ 1 = regs[1]`:
the taken branch jumps to 5 > 1 and the next step is the fatal
out-of-bounds fetch. -/
theorem halt_iff_ip_eq_length_witness :
    (step [Inst.Bne 0 1 5] ⟨1, 0, fun n => n⟩ = .halt ↔
      (1 : Nat) = ([Inst.Bne 0 1 5] : List Inst).length) ∧
    step [Inst.Bne 0 1 5] ⟨0, 0, fun n => n⟩ = .next ⟨5, 0, fun n => n⟩ ∧
    step [Inst.Bne 0 1 5] ⟨5, 0, fun n => n⟩ = .error .ipOutOfBounds := by
  refine ⟨(halt_iff_ip_eq_length [Inst.Bne 0 1 5] ⟨1, 0, fun n => n⟩).1, ?_⟩
  exact (halt_iff_ip_eq_length [Inst.Bne 0 1 5] ⟨0, 0, fun n => n⟩).2 0 1 5 rfl
    (by decide) (by decide)

/-! ## Assembler scanner (`Lexer` in src/assembler.rs)

`Token` collapses the Rust `Token`/`TokenBase`/`WordBase`/`Num` nest: the
tag of a `Word` is always `Tag::Id` and of a `Num` always `Tag::Num`, so
only a raw symbol's character code is kept.  `Token.str` is
`Token::to_string`.  The lexer state is the unread characters (the
`BufReader`), the one-character lookahead `peek`, the `eof` flag and the
line counter; `Lexer::new` starts with `peek = ' '`, `eof = false`,
`line_num = 1`. -/

inductive Token where
  | token (tag : Nat)
  | word (lexeme : String)
  | num (value : Nat)
  | eof
deriving DecidableEq

/-- `Token::to_string` from src/assembler.rs. -/
def Token.str : Token → String
  | .token tag => String.singleton (Char.ofNat tag)
  | .word s => s
  | .num v => toString v
  | .eof => "Eof"

structure LexState where
  input : List Char
  peek : Char
  eof : Bool
  line_num : Nat
deriving DecidableEq

/-- `Lexer::read_char`: on input, move the next character into `peek`;
at end of input set the `eof` flag and leave `peek` unchanged. -/
def read_char (s : LexState) : LexState :=
  match s.input with
  | [] => { s with eof := true }
  | c :: rest => { s with peek := c, input := rest }

/-- Result of the whitespace-skipping loop at the top of `Lexer::scan`:
either `read_char` hit end of input (scan returns `Token::Eof`) or a
non-whitespace `peek` is ready. -/
inductive WsOut where
  | eofReached (s : LexState)
  | ready (s : LexState)

/-- The whitespace loop of `Lexer::scan`: skip `' '`/`'\t'`, count lines
on `'\n'`, `read_char`, and return `Eof` as soon as the flag is set
(curried through the state fields so that the recursion is structural on
the remaining input). -/
def wsLoopAux : List Char → Char → Bool → Nat → WsOut
  | input, peek, eofF, ln =>
    if peek = ' ' ∨ peek = '\t' ∨ peek = '\n' then
      let ln2 := if peek = '\n' then ln + 1 else ln
      match input with
      | [] => .eofReached ⟨[], peek, true, ln2⟩
      | c :: rest =>
          if eofF then .eofReached ⟨rest, c, eofF, ln2⟩
          else wsLoopAux rest c eofF ln2
    else .ready ⟨input, peek, eofF, ln⟩

def wsLoop (s : LexState) : WsOut :=
  wsLoopAux s.input s.peek s.eof s.line_num

/-- `to_digit(10).unwrap()` on a digit character. -/
def digitVal (c : Char) : Nat := c.toNat - 48

/-- The number loop of `Lexer::scan`: accumulate `v = 10*v + digit`,
`read_char`, stop when the new `peek` is no digit.  When the input ends
while `peek` is still a digit the Rust loop never breaks (`read_char`
keeps the digit in `peek` at end of input and `v` overflows `u32`);
that divergence is `none`. -/
def numLoopAux : List Char → Char → Bool → Nat → Nat → Option (Nat × LexState)
  | input, peek, eofF, ln, v =>
    let v2 := 10 * v + digitVal peek
    match input with
    | [] => none
    | c :: rest =>
        if c.isDigit then numLoopAux rest c eofF ln v2
        else some (v2, ⟨rest, c, eofF, ln⟩)

/-- The identifier loop of `Lexer::scan`: collect letters/digits starting
at `peek`; as in the number loop, end of input while `peek` is still
alphanumeric never breaks in Rust (`none`). -/
def wordLoopAux : List Char → Char → Bool → Nat → List Char → Option (String × LexState)
  | input, peek, eofF, ln, acc =>
    let acc2 := acc ++ [peek]
    match input with
    | [] => none
    | c :: rest =>
        if c.isAlpha ∨ c.isDigit then wordLoopAux rest c eofF ln acc2
        else some (String.mk acc2, ⟨rest, c, eofF, ln⟩)

/-- The tail of `Lexer::scan` after the number block: the identifier
block, then the raw-symbol fallback (`Token::Token(peek as u32)` with
`peek` reset to `' '`). -/
def scanTail (s : LexState) : Option (Token × LexState) :=
  if s.peek.isAlpha then
    match wordLoopAux s.input s.peek s.eof s.line_num [] with
    | none => none
    | some (w, s2) => some (.word w, s2)
  else some (.token s.peek.toNat, { s with peek := ' ' })

/-- `Lexer::scan` from src/assembler.rs: skip whitespace, then number
handling — note the `if self.peek != '.'` guard: when the digit run is
followed by `'.'` the accumulated number is NOT returned and control
falls through to the identifier/symbol code with the digits already
consumed — then identifier handling, then the raw-symbol fallback.
`none` models the source's non-terminating loops at end of input. -/
def scan (s0 : LexState) : Option (Token × LexState) :=
  match wsLoop s0 with
  | .eofReached s1 => some (.eof, s1)
  | .ready s1 =>
    if s1.peek.isDigit then
      match numLoopAux s1.input s1.peek s1.eof s1.line_num 0 with
      | none => none
      | some (v, s2) =>
          if s2.peek ≠ '.' then some (.num v, s2)
          else scanTail s2
    else scanTail s1

/-- The lexer state right after `Lexer::new`. -/
def initLex (src : List Char) : LexState := ⟨src, ' ', false, 1⟩

/-- The decimal value of the digit run `ds` continuing accumulator `a`,
as accumulated by the number loop. -/
def decRun (a : Nat) (ds : List Char) : Nat :=
  ds.foldl (fun acc d => 10 * acc + digitVal d) a

/-- Counterexample to C9: scanning `"12."` does not produce the numeric
token 12 — the `if self.peek != '.'` guard drops out of the number block
without returning, the digit run is discarded, and the scanner returns
the raw symbol token for `'.'` (character code 46), consuming it. -/
theorem scan_digits_dot_counterexample :
    scan (initLex ['1', '2', '.']) = some (.token 46, ⟨[], ' ', false, 1⟩) := rfl

theorem scanTail_symbol (s : LexState) (h : s.peek.isAlpha = false) :
    scanTail s = some (.token s.peek.toNat, { s with peek := ' ' }) := by
  rw [scanTail, if_neg (by simp [h])]

theorem numLoopAux_run (ds : List Char) (c : Char) (rest : List Char)
    (peek : Char) (eofF : Bool) (ln v : Nat)
    (hds : ∀ d ∈ ds, d.isDigit = true) (hc : c.isDigit = false) :
    numLoopAux (ds ++ c :: rest) peek eofF ln v =
      some (decRun (10 * v + digitVal peek) ds, ⟨rest, c, eofF, ln⟩) := by
  induction ds generalizing peek v with
  | nil => simp [numLoopAux, hc, decRun]
  | cons d ds ih =>
      have hd : d.isDigit = true := hds d (by simp)
      rw [List.cons_append, numLoopAux]
      simp only [hd, if_true, decRun, List.foldl_cons]
      exact ih d (10 * v + digitVal peek) (fun e he => hds e (by simp [he]))

/-- C9 (amended): when the scanner meets a run of decimal digits, the run
is consumed and its decimal value accumulated; if the character after the
run is anything but `'.'` a numeric token with that value is returned,
but if it is `'.'` the number is discarded (not returned at all) and the
scanner instead returns the single-symbol token for `'.'`, consuming it. -/
theorem scan_digit_run (s : LexState) (ds : List Char) (c : Char) (rest : List Char)
    (hp : s.peek.isDigit = true) (hin : s.input = ds ++ c :: rest)
    (hds : ∀ d ∈ ds, d.isDigit = true) (hc : c.isDigit = false) :
    (c = '.' → scan s = some (.token 46, ⟨rest, ' ', s.eof, s.line_num⟩)) ∧
    (c ≠ '.' → scan s =
      some (.num (decRun (digitVal s.peek) ds), ⟨rest, c, s.eof, s.line_num⟩)) := by
  have hws : wsLoop s = .ready ⟨s.input, s.peek, s.eof, s.line_num⟩ := by
    have h1 : ¬ (s.peek = ' ' ∨ s.peek = '\t' ∨ s.peek = '\n') := by
      rintro (h | h | h) <;> rw [h] at hp <;> exact Bool.noConfusion hp
    rw [wsLoop, wsLoopAux, if_neg h1]
  have hnum := numLoopAux_run ds c rest s.peek s.eof s.line_num 0 hds hc
  constructor
  · intro hdot
    subst hdot
    rw [scan, hws]
    simp only [hp, if_true, hin, hnum]
    have : ¬ ('.' : Char) ≠ '.' := fun h => h rfl
    rw [if_neg this]
    rw [scanTail_symbol ⟨rest, '.', s.eof, s.line_num⟩ rfl]
    rfl
  · intro hdot
    rw [scan, hws]
    simp only [hp, if_true, hin, hnum]
    rw [if_pos hdot]
    simp [decRun]

/-- Witness for C9 (amended), both branches: scanning from peek `'1'`
with input `"2."` gives the symbol token for `'.'`; with input `"2 "`
it gives the numeric token 12. -/
theorem scan_digit_run_witness :
    scan ⟨['2', '.'], '1', false, 1⟩ = some (.token 46, ⟨[], ' ', false, 1⟩) ∧
    scan ⟨['2', ' '], '1', false, 1⟩ = some (.num 12, ⟨[], ' ', false, 1⟩) := by
  constructor
  · exact (scan_digit_run ⟨['2', '.'], '1', false, 1⟩ ['2'] '.' [] (by decide) rfl
      (by decide) (by decide)).1 rfl
  · have h := (scan_digit_run ⟨['2', ' '], '1', false, 1⟩ ['2'] ' ' [] (by decide) rfl
      (by decide) (by decide)).2 (by decide)
    rw [h]
    rfl

/-! ## Assembler parser (`Parser::fetch_insts` in src/assembler.rs)

The parser pulls one token per `self.lex.scan()` call; the embedding runs
the same loop over the token sequence the scanner produces, `nextTok`
standing for one `scan` call (once the character stream is exhausted,
`scan` keeps answering `Token::Eof`, hence the `[]` case).  The
accumulator `ret` is the `Vec<Inst>` under construction and `labels` the
`HashMap<String, u32>` (insertion = prepend, lookup = first hit, which is
the map's overwrite semantics).  Each `panic!`/`assert!` of the source
becomes a `PError`; the loop is driven by a structural fuel argument with
`none` meaning the fuel ran out (any fuel above the token count is enough,
so no source behaviour is lost). -/

inductive PError where
  | unknownMnemonic (m : String)
  | undefinedLabel (l : String)
  | malformedRegister
  | notANum
  | unexpectedToken
deriving DecidableEq

/-- `handle_reg`: the token must be a `Word` (else the
"This token is not a Word" panic), its lexeme `v` followed by one or more
decimal digits (the two `assert!`s), and the digits must parse as a `u8`
(`num.parse::<u8>().unwrap()`); all failure panics are collapsed into
`malformedRegister`. -/
def handle_reg : Token → Except PError Nat
  | .word w =>
    match w.data with
    | 'v' :: ds =>
        if ds ≠ [] ∧ (∀ d ∈ ds, d.isDigit = true) ∧ decRun 0 ds ≤ 255
        then .ok (decRun 0 ds)
        else .error .malformedRegister
    | _ => .error .malformedRegister
  | _ => .error .malformedRegister

/-- `handle_imm`: the token must be a `Num` (else the
"This token is not a Num" panic). -/
def handle_imm : Token → Except PError Nat
  | .num v => .ok v
  | _ => .error .notANum

/-- One `self.lex.scan()` against the remaining token sequence. -/
def nextTok : List Token → Token × List Token
  | [] => (.eof, [])
  | t :: ts => (t, ts)

/-- `mnem.starts_with("L")`. -/
def startsWithL (m : String) : Bool := m.data.head? == some 'L'

/-- The `loop` of `Parser::fetch_insts`, arm for arm in source order.
`Parser::match_(",")` is the `c.str = ","` test (its failure panic is
`unexpectedToken`); `ret.push(...)` is `ret ++ [...]`; a label mnemonic
records `(mnem, ret.length)` and discards one token. -/
def parseLoop : Nat → List Token → List (String × Nat) → List Inst →
    Option (Except PError (List Inst))
  | 0, _, _, _ => none
  | _ + 1, [], _, ret => some (.ok ret)
  | fuel + 1, t :: toks, labels, ret =>
    match t with
    | .eof => some (.ok ret)
    | _ =>
      let mnem := t.str
      if mnem = "mov" then
        let tv1 := (nextTok toks).fst
        let r1 := (nextTok toks).snd
        let c := (nextTok r1).fst
        let r2 := (nextTok r1).snd
        if c.str = "," then
          let tv2 := (nextTok r2).fst
          let r3 := (nextTok r2).snd
          match handle_reg tv1 with
          | .error e => some (.error e)
          | .ok a =>
            match handle_reg tv2 with
            | .error e => some (.error e)
            | .ok b => parseLoop fuel r3 labels (ret ++ [.Mov a b])
        else some (.error .unexpectedToken)
      else if mnem = "movi" then
        let tv := (nextTok toks).fst
        let r1 := (nextTok toks).snd
        let c := (nextTok r1).fst
        let r2 := (nextTok r1).snd
        if c.str = "," then
          let ti := (nextTok r2).fst
          let r3 := (nextTok r2).snd
          match handle_reg tv with
          | .error e => some (.error e)
          | .ok a =>
            match handle_imm ti with
            | .error e => some (.error e)
            | .ok imm => parseLoop fuel r3 labels (ret ++ [.Movi a imm])
        else some (.error .unexpectedToken)
      else if mnem = "ldai" then
        let ti := (nextTok toks).fst
        let r1 := (nextTok toks).snd
        match handle_imm ti with
        | .error e => some (.error e)
        | .ok imm => parseLoop fuel r1 labels (ret ++ [.Ldai imm])
      else if mnem = "lda" then
        let tv := (nextTok toks).fst
        let r1 := (nextTok toks).snd
        match handle_reg tv with
        | .error e => some (.error e)
        | .ok a => parseLoop fuel r1 labels (ret ++ [.Lda a])
      else if mnem = "sta" then
        let tv := (nextTok toks).fst
        let r1 := (nextTok toks).snd
        match handle_reg tv with
        | .error e => some (.error e)
        | .ok a => parseLoop fuel r1 labels (ret ++ [.Sta a])
      else if mnem = "add" then
        let tv := (nextTok toks).fst
        let r1 := (nextTok toks).snd
        match handle_reg tv with
        | .error e => some (.error e)
        | .ok a => parseLoop fuel r1 labels (ret ++ [.Add a])
      else if mnem = "dec" then
        let tv := (nextTok toks).fst
        let r1 := (nextTok toks).snd
        match handle_reg tv with
        | .error e => some (.error e)
        | .ok a => parseLoop fuel r1 labels (ret ++ [.Dec a])
      else if mnem = "bne" then
        let tv1 := (nextTok toks).fst
        let r1 := (nextTok toks).snd
        let c1 := (nextTok r1).fst
        let r2 := (nextTok r1).snd
        if c1.str = "," then
          let tv2 := (nextTok r2).fst
          let r3 := (nextTok r2).snd
          let c2 := (nextTok r3).fst
          let r4 := (nextTok r3).snd
          if c2.str = "," then
            let tl := (nextTok r4).fst
            let r5 := (nextTok r4).snd
            let label := tl.str
            match labels.lookup label with
            | none => some (.error (.undefinedLabel label))
            | some tgt =>
              match handle_reg tv1 with
              | .error e => some (.error e)
              | .ok a =>
                match handle_reg tv2 with
                | .error e => some (.error e)
                | .ok b => parseLoop fuel r5 labels (ret ++ [.Bne a b tgt])
          else some (.error .unexpectedToken)
        else some (.error .unexpectedToken)
      else if mnem = "print" then
        parseLoop fuel toks labels (ret ++ [.Print])
      else if startsWithL mnem then
        let r1 := (nextTok toks).snd
        parseLoop fuel r1 ((mnem, ret.length) :: labels) ret
      else some (.error (.unknownMnemonic mnem))

theorem startsWithL_ne (m : String) (h : startsWithL m = true) :
    m ≠ "mov" ∧ m ≠ "movi" ∧ m ≠ "ldai" ∧ m ≠ "lda" ∧ m ≠ "sta" ∧
    m ≠ "add" ∧ m ≠ "dec" ∧ m ≠ "bne" ∧ m ≠ "print" := by
  refine ⟨?_, ?_, ?_, ?_, ?_, ?_, ?_, ?_, ?_⟩ <;>
    (intro e; subst e; exact absurd h (by decide))

/-- A mnemonic beginning with `L` (which none of the nine instruction
mnemonics does) declares a label bound to `ret.len()` — the index of the
next instruction to be emitted — and one following token is discarded. -/
theorem parse_label_step (fuel : Nat) (rest : List Token)
    (labels : List (String × Nat)) (ret : List Inst) (m : String) (sep : Token)
    (hL : startsWithL m = true) :
    parseLoop (fuel + 1) (.word m :: sep :: rest) labels ret =
      parseLoop fuel rest ((m, ret.length) :: labels) ret := by
  obtain ⟨h1, h2, h3, h4, h5, h6, h7, h8, h9⟩ := startsWithL_ne m hL
  conv_lhs => rw [parseLoop.eq_def]
  simp only [Token.str, nextTok, hL, if_true, if_neg h1, if_neg h2, if_neg h3,
    if_neg h4, if_neg h5, if_neg h6, if_neg h7, if_neg h8, if_neg h9]

/-- A `bne` whose label is present in the table emits
`Bne a b tgt` with `tgt` the recorded index. -/
theorem parse_bne_declared (fuel : Nat) (rest : List Token)
    (labels : List (String × Nat)) (ret : List Inst) (ta tb : Token)
    (a b : Nat) (lab : String) (tgt : Nat)
    (ha : handle_reg ta = .ok a) (hb : handle_reg tb = .ok b)
    (hl : labels.lookup lab = some tgt) :
    parseLoop (fuel + 1)
        (.word "bne" :: ta :: .token 44 :: tb :: .token 44 :: .word lab :: rest)
        labels ret =
      parseLoop fuel rest labels (ret ++ [.Bne a b tgt]) := by
  conv_lhs => rw [parseLoop.eq_def]
  simp only [Token.str, nextTok, ha, hb, hl, String.reduceEq, reduceIte,
    show String.singleton (Char.ofNat 44) = ("," : String) from by decide]

/-- A `bne` whose label is absent from the table fails with the
undefined-label error (the `panic!("Label {} not found")` site). -/
theorem parse_bne_undeclared (fuel : Nat) (rest : List Token)
    (labels : List (String × Nat)) (ret : List Inst) (ta tb : Token)
    (lab : String)
    (hl : labels.lookup lab = none) :
    parseLoop (fuel + 1)
        (.word "bne" :: ta :: .token 44 :: tb :: .token 44 :: .word lab :: rest)
        labels ret =
      some (.error (.undefinedLabel lab)) := by
  conv_lhs => rw [parseLoop.eq_def]
  simp only [Token.str, nextTok, hl, String.reduceEq, reduceIte,
    show String.singleton (Char.ofNat 44) = ("," : String) from by decide]

/-- C5: a label declaration binds the label name to the number of
instructions emitted so far (the index of the next instruction); a `bne`
whose label is in the table at parse time succeeds and its branch-target
operand is exactly the recorded index, while a `bne` whose label has not
yet been declared at the point the branch is parsed fails with the
undefined-label error.  The last two conjuncts run a complete source,
`L1 : dec v0  bne v0 , v1 , L1` (backward reference succeeds, target 0 —
the index recorded when `L1` was declared) and `bne v0 , v1 , L9` with
`L9` never declared (undefined-label failure). -/
theorem label_scoping :
    (∀ (fuel : Nat) (rest : List Token) (labels : List (String × Nat))
        (ret : List Inst) (m : String) (sep : Token), startsWithL m = true →
      parseLoop (fuel + 1) (.word m :: sep :: rest) labels ret =
        parseLoop fuel rest ((m, ret.length) :: labels) ret) ∧
    (∀ (fuel : Nat) (rest : List Token) (labels : List (String × Nat))
        (ret : List Inst) (ta tb : Token) (a b : Nat) (lab : String) (tgt : Nat),
      handle_reg ta = .ok a → handle_reg tb = .ok b →
      labels.lookup lab = some tgt →
      parseLoop (fuel + 1)
          (.word "bne" :: ta :: .token 44 :: tb :: .token 44 :: .word lab :: rest)
          labels ret =
        parseLoop fuel rest labels (ret ++ [.Bne a b tgt])) ∧
    (∀ (fuel : Nat) (rest : List Token) (labels : List (String × Nat))
        (ret : List Inst) (ta tb : Token) (lab : String),
      labels.lookup lab = none →
      parseLoop (fuel + 1)
          (.word "bne" :: ta :: .token 44 :: tb :: .token 44 :: .word lab :: rest)
          labels ret =
        some (.error (.undefinedLabel lab))) ∧
    parseLoop 4
        [.word "L1", .token 58, .word "dec", .word "v0", .word "bne",
          .word "v0", .token 44, .word "v1", .token 44, .word "L1"] [] [] =
      some (.ok [.Dec 0, .Bne 0 1 0]) ∧
    parseLoop 1
        [.word "bne", .word "v0", .token 44, .word "v1", .token 44, .word "L9"]
        [] [] =
      some (.error (.undefinedLabel "L9")) :=
  ⟨fun fuel rest labels ret m sep hL =>
      parse_label_step fuel rest labels ret m sep hL,
   fun fuel rest labels ret ta tb a b lab tgt ha hb hl =>
      parse_bne_declared fuel rest labels ret ta tb a b lab tgt ha hb hl,
   fun fuel rest labels ret ta tb lab hl =>
      parse_bne_undeclared fuel rest labels ret ta tb lab hl,
   rfl, rfl⟩

/-- Witness for C5 at concrete inputs: declaring `L1` after one emitted
instruction binds it to 1; a `bne` under `[("L1", 1)]` emits
`Bne 0 1 1`; a `bne` under the empty table fails. -/
theorem label_scoping_witness :
    startsWithL "L1" = true ∧
    handle_reg (.word "v0") = .ok 0 ∧
    handle_reg (.word "v1") = .ok 1 ∧
    ([("L1", 1)] : List (String × Nat)).lookup "L1" = some 1 ∧
    ([] : List (String × Nat)).lookup "L9" = none ∧
    parseLoop 1 [Token.word "L1", .token 58] [] [.Print] =
      parseLoop 0 [] [("L1", [Inst.Print].length)] [.Print] ∧
    parseLoop 1
        [Token.word "bne", .word "v0", .token 44, .word "v1", .token 44, .word "L1"]
        [("L1", 1)] [] =
      parseLoop 0 [] [("L1", 1)] ([] ++ [Inst.Bne 0 1 1]) ∧
    parseLoop 1
        [Token.word "bne", .word "v0", .token 44, .word "v1", .token 44, .word "L9"]
        [] [] =
      some (.error (.undefinedLabel "L9")) :=
  ⟨rfl, rfl, rfl, rfl, rfl,
   label_scoping.1 0 [] [] [.Print] "L1" (.token 58) rfl,
   label_scoping.2.1 0 [] [("L1", 1)] [] (.word "v0") (.word "v1") 0 1 "L1" 1
     rfl rfl rfl,
   label_scoping.2.2.1 0 [] [] [] (.word "v0") (.word "v1") "L9" rfl⟩

/-! ## Layout (src/jit.rs)

Blocks and instructions are `u32` ids (`Nat` here).  A
`SecondaryMap<K, V>` answers the default `V` for absent keys, so it is a
total function `Nat → V`; `setBlock`/`setInst` are its `index_mut`
writes.  `BlockNode`/`InstNode` carry the intrusive links.  The
`debug_assert!` preconditions of `append_block`/`append_inst` become the
`validOp` predicate, and a call sequence becomes a `List LOp`. -/

structure BlockNode where
  prev : Option Nat := none
  next : Option Nat := none
  first_phi : Option Nat := none
  first_inst : Option Nat := none
  last_inst : Option Nat := none
deriving DecidableEq

structure InstNode where
  block : Option Nat := none
  prev : Option Nat := none
  next : Option Nat := none
deriving DecidableEq

structure Layout where
  blocks : Nat → BlockNode
  insts : Nat → InstNode
  first_block : Option Nat
  last_block : Option Nat

/-- `Layout::new`. -/
def Layout.empty : Layout := ⟨fun _ => {}, fun _ => {}, none, none⟩

def setBlock (L : Layout) (b : Nat) (n : BlockNode) : Layout :=
  { L with blocks := fun k => if k = b then n else L.blocks k }

def setInst (L : Layout) (i : Nat) (n : InstNode) : Layout :=
  { L with insts := fun k => if k = i then n else L.insts k }

/-- `Layout::is_block_inserted`:
`Some(block) == self.first_block || self.blocks[block].prev.is_some()`. -/
def Layout.is_block_inserted (L : Layout) (b : Nat) : Bool :=
  some b == L.first_block || (L.blocks b).prev.isSome

/-- `Layout::append_block`: link `block` behind `last_block` (statement
order of the source preserved: the node's `prev`/`next` first, then the
old last block's `next` or `first_block`, then `last_block`). -/
def Layout.append_block (L : Layout) (b : Nat) : Layout :=
  let L1 := setBlock L b { L.blocks b with prev := L.last_block, next := none }
  let L2 := match L.last_block with
    | some last => setBlock L1 last { L1.blocks last with next := some b }
    | none => { L1 with first_block := some b }
  { L2 with last_block := some b }

/-- `Layout::inst_block`. -/
def Layout.inst_block (L : Layout) (i : Nat) : Option Nat := (L.insts i).block

/-- `Layout::append_inst`: record the owning block and the `prev` link on
the instruction node, then either set the block's `first_inst` or chain
behind the old `last_inst`, then set `last_inst`.  The
`last_inst.unwrap()` in the source can only panic on a block whose
`first_inst` is set but `last_inst` is not, which no append sequence
produces; that unreachable arm is modelled as leaving the layout
unchanged. -/
def Layout.append_inst (L : Layout) (i b : Nat) : Layout :=
  let bn := L.blocks b
  let L1 := setInst L i { L.insts i with block := some b, prev := bn.last_inst }
  let L2 :=
    if bn.first_inst.isNone then
      setBlock L1 b { L1.blocks b with first_inst := some i }
    else
      match bn.last_inst with
      | some last => setInst L1 last { L1.insts last with next := some i }
      | none => L1
  setBlock L2 b { L2.blocks b with last_inst := some i }

/-- `Layout::next_block`. -/
def Layout.next_block (L : Layout) (b : Nat) : Option Nat := (L.blocks b).next

/-- The `Blocks` iterator of src/jit.rs driven for `fuel` steps: starting
from `first_block` (`Layout::blocks()`), follow `next_block` until
`None`.  A fuel bound makes the iteration total; the claim theorem shows
any fuel from the block count up yields the same full traversal, i.e. the
source iterator terminates. -/
def blocksFrom (L : Layout) : Nat → Option Nat → List Nat
  | 0, _ => []
  | _ + 1, none => []
  | fuel + 1, some b => b :: blocksFrom L fuel (L.blocks b).next

/-- One call of the public mutation API. -/
inductive LOp where
  | appendBlock (b : Nat)
  | appendInst (i b : Nat)
deriving DecidableEq

def applyOp (L : Layout) : LOp → Layout
  | .appendBlock b => L.append_block b
  | .appendInst i b => L.append_inst i b

def applyOps (L : Layout) : List LOp → Layout
  | [] => L
  | op :: ops => applyOps (applyOp L op) ops

/-- The `debug_assert!` preconditions of the call: a block may not be
re-appended and must have no instructions yet; an instruction may not
already be assigned and its block must be inserted. -/
def validOp (L : Layout) : LOp → Bool
  | .appendBlock b =>
      !(L.is_block_inserted b) && (L.blocks b).first_inst.isNone &&
        (L.blocks b).last_inst.isNone
  | .appendInst i b => (L.inst_block i).isNone && L.is_block_inserted b

def validOps (L : Layout) : List LOp → Bool
  | [] => true
  | op :: ops => validOp L op && validOps (applyOp L op) ops

/-- The blocks appended by a call sequence, in call order. -/
def blockSeq : List LOp → List Nat
  | [] => []
  | .appendBlock b :: ops => b :: blockSeq ops
  | .appendInst _ _ :: ops => blockSeq ops

/-- The (instruction, block) pairs appended by a call sequence. -/
def instPairs : List LOp → List (Nat × Nat)
  | [] => []
  | .appendInst i b :: ops => (i, b) :: instPairs ops
  | .appendBlock _ :: ops => instPairs ops

/-- `cur` heads a `next`-linked chain that traverses exactly `seq` and
ends at `none`. -/
def chainOk (L : Layout) : Option Nat → List Nat → Prop
  | cur, [] => cur = none
  | cur, b :: rest => cur = some b ∧ chainOk L (L.blocks b).next rest

/-- The inductive invariant tying a layout to the blocks `seq` and the
instruction assignments `pairs` made so far. -/
def LayoutInv (L : Layout) (seq : List Nat) (pairs : List (Nat × Nat)) : Prop :=
  chainOk L L.first_block seq ∧
  L.last_block = seq.getLast? ∧
  (∀ b, b ∈ seq ↔ L.is_block_inserted b = true) ∧
  seq.Nodup ∧
  (∀ p ∈ pairs, (L.insts p.1).block = some p.2)

theorem layoutInv_empty : LayoutInv Layout.empty [] [] := by
  refine ⟨rfl, rfl, ?_, List.nodup_nil, ?_⟩
  · intro b
    simp [Layout.is_block_inserted, Layout.empty]
  · intro p hp
    exact absurd hp (List.not_mem_nil p)

theorem append_inst_links (L : Layout) (i b k : Nat) :
    ((L.append_inst i b).blocks k).next = (L.blocks k).next ∧
    ((L.append_inst i b).blocks k).prev = (L.blocks k).prev ∧
    (L.append_inst i b).first_block = L.first_block ∧
    (L.append_inst i b).last_block = L.last_block := by
  unfold Layout.append_inst setBlock setInst
  cases hfi : (L.blocks b).first_inst.isNone with
  | true =>
      by_cases hk : k = b <;> simp [hfi, hk]
  | false =>
      cases hli : (L.blocks b).last_inst with
      | none => by_cases hk : k = b <;> simp [hfi, hli, hk]
      | some last => by_cases hk : k = b <;> simp [hfi, hli, hk]

theorem append_inst_block_of (L : Layout) (i b j : Nat) :
    ((L.append_inst i b).insts j).block =
      if j = i then some b else (L.insts j).block := by
  unfold Layout.append_inst setBlock setInst
  cases hfi : (L.blocks b).first_inst.isNone with
  | true => by_cases hj : j = i <;> simp [hfi, hj]
  | false =>
      cases hli : (L.blocks b).last_inst with
      | none => by_cases hj : j = i <;> simp [hfi, hli, hj]
      | some last =>
          by_cases hjl : j = last
          · subst hjl
            by_cases hj : j = i
            · subst hj
              simp [hfi, hli]
            · simp [hfi, hli, hj]
          · by_cases hj : j = i
            · subst hj
              simp [hfi, hli, hjl]
            · simp [hfi, hli, hj, hjl]

theorem append_block_insts (L : Layout) (b : Nat) :
    (L.append_block b).insts = L.insts := by
  unfold Layout.append_block setBlock
  cases L.last_block <;> rfl

theorem chainOk_congr (L L' : Layout) (seq : List Nat)
    (h : ∀ k, (L'.blocks k).next = (L.blocks k).next) :
    ∀ cur, chainOk L cur seq → chainOk L' cur seq := by
  induction seq with
  | nil => intro cur hc; exact hc
  | cons s rest ih =>
      intro cur hc
      obtain ⟨hcur, htail⟩ := hc
      exact ⟨hcur, by rw [h s]; exact ih _ htail⟩

theorem chainOk_snoc (L L' : Layout) (seq : List Nat) (last b : Nat)
    (hlast : seq.getLast? = some last)
    (hnodup : seq.Nodup)
    (hnotin : b ∉ seq)
    (hnext : ∀ x ∈ seq, x ≠ last → (L'.blocks x).next = (L.blocks x).next)
    (hlastnext : (L'.blocks last).next = some b)
    (hbnext : (L'.blocks b).next = none) :
    ∀ cur, chainOk L cur seq → chainOk L' cur (seq ++ [b]) := by
  induction seq with
  | nil => intro cur _; exact absurd hlast (by simp)
  | cons s rest ih =>
      intro cur hc
      obtain ⟨hcur, htail⟩ := hc
      cases rest with
      | nil =>
          have hs : s = last := by simpa using hlast
          subst hs
          exact ⟨hcur, hlastnext, hbnext⟩
      | cons t ts =>
          have hlast2 : (t :: ts).getLast? = some last := by
            rwa [List.getLast?_cons_cons] at hlast
          have hlmem : last ∈ t :: ts := by
            rcases List.mem_getLast?_eq_getLast (l := t :: ts) (x := last)
              (Option.mem_def.mpr hlast2) with ⟨hne, he⟩
            exact he ▸ List.getLast_mem hne
          have hsl : s ≠ last := by
            intro e
            subst e
            exact (List.nodup_cons.mp hnodup).1 hlmem
          refine ⟨hcur, ?_⟩
          rw [hnext s (by simp) hsl]
          exact ih hlast2 (List.nodup_cons.mp hnodup).2
            (fun hb => hnotin (by simp [hb]))
            (fun x hx hxl => hnext x (by simp [hx]) hxl) _ htail




theorem is_block_inserted_iff (L : Layout) (b : Nat) :
    L.is_block_inserted b = true ↔
      (L.first_block = some b ∨ (L.blocks b).prev ≠ none) := by
  unfold Layout.is_block_inserted
  rw [Bool.or_eq_true, beq_iff_eq, Option.isSome_iff_ne_none]
  exact or_congr ⟨Eq.symm, Eq.symm⟩ Iff.rfl

theorem inv_appendBlock (L : Layout) (seq : List Nat) (pairs : List (Nat × Nat))
    (b : Nat) (hInv : LayoutInv L seq pairs)
    (hv : validOp L (.appendBlock b) = true) :
    LayoutInv (L.append_block b) (seq ++ [b]) pairs := by
  obtain ⟨hchain, hlastb, hmem, hnodup, hpairs⟩ := hInv
  have hnotins : L.is_block_inserted b = false := by
    have h := hv
    simp only [validOp, Bool.and_eq_true, Bool.not_eq_true'] at h
    exact h.1.1
  have hbnotin : b ∉ seq := by
    intro hb
    have ht := (hmem b).mp hb
    rw [ht] at hnotins
    exact Bool.noConfusion hnotins
  have hinsts : (L.append_block b).insts = L.insts := append_block_insts L b
  cases hlb : L.last_block with
  | none =>
      have hseq : seq = [] := by
        rw [hlb] at hlastb
        cases seq with
        | nil => rfl
        | cons s r =>
            rw [List.getLast?_eq_getLast_of_ne_nil (l := s :: r) (by simp)]
              at hlastb
            exact Option.noConfusion hlastb
      subst hseq
      refine ⟨?_, ?_, ?_, by simp, ?_⟩
      · show chainOk _ (L.append_block b).first_block [b]
        refine ⟨?_, ?_⟩
        · simp [Layout.append_block, setBlock, hlb]
        · show ((L.append_block b).blocks b).next = none
          simp [Layout.append_block, setBlock, hlb]
      · show (L.append_block b).last_block = ([] ++ [b]).getLast?
        simp [Layout.append_block, setBlock, hlb]
      · intro x
        by_cases hx : x = b
        · subst hx
          simp [Layout.append_block, setBlock, hlb, Layout.is_block_inserted]
        · have hxins : L.is_block_inserted x = false := by
            have h2 := hmem x
            simp only [List.not_mem_nil, false_iff, Bool.not_eq_true] at h2
            exact h2
          have hxprev : (L.blocks x).prev.isSome = false := by
            simp only [Layout.is_block_inserted, Bool.or_eq_false_iff] at hxins
            exact hxins.2
          simp [Layout.append_block, setBlock, hlb, Layout.is_block_inserted,
            hx, hxprev]
      · rw [hinsts]
        exact hpairs
  | some last =>
      have hlmem : last ∈ seq := by
        rcases List.mem_getLast?_eq_getLast (l := seq) (x := last)
          (Option.mem_def.mpr (hlb ▸ hlastb).symm) with ⟨hne, he⟩
        exact he ▸ List.getLast_mem hne
      have hbl : b ≠ last := fun e => hbnotin (e ▸ hlmem)
      have hfb : (L.append_block b).first_block = L.first_block := by
        simp [Layout.append_block, setBlock, hlb]
      have hblocksb : ((L.append_block b).blocks b).next = none ∧
          ((L.append_block b).blocks b).prev = some last := by
        constructor <;> simp [Layout.append_block, setBlock, hlb, hbl]
      have hblockslast : ((L.append_block b).blocks last).next = some b := by
        simp [Layout.append_block, setBlock, hlb, hbl]
      have hother : ∀ x, x ≠ b → x ≠ last →
          (L.append_block b).blocks x = L.blocks x := by
        intro x hxb hxl
        simp [Layout.append_block, setBlock, hlb, hxb, hxl]
      have hprev : ∀ x, x ≠ b →
          ((L.append_block b).blocks x).prev = (L.blocks x).prev := by
        intro x hxb
        by_cases hxl : x = last
        · subst hxl
          simp [Layout.append_block, setBlock, hlb, hbl, hxb]
        · rw [hother x hxb hxl]
      refine ⟨?_, ?_, ?_, ?_, ?_⟩
      · show chainOk _ (L.append_block b).first_block (seq ++ [b])
        rw [hfb]
        refine chainOk_snoc L (L.append_block b) seq last b (hlb ▸ hlastb).symm
          hnodup hbnotin ?_ hblockslast hblocksb.1 _ hchain
        intro x hx hxl
        rw [hother x (fun e => hbnotin (e ▸ hx)) hxl]
      · show (L.append_block b).last_block = (seq ++ [b]).getLast?
        rw [List.getLast?_concat]
        simp [Layout.append_block, setBlock, hlb]
      · intro x
        rw [List.mem_append]
        by_cases hx : x = b
        · subst hx
          simp only [is_block_inserted_iff, hblocksb.2]
          simp
        · have hxiff := hmem x
          simp only [is_block_inserted_iff] at hxiff ⊢
          rw [hfb, hprev x hx]
          simp only [List.mem_singleton, hx, or_false]
          exact hxiff
      · simp only [List.nodup_append, List.nodup_singleton, List.nodup_cons]
        exact ⟨hnodup, by simp, by simpa [List.disjoint_singleton] using hbnotin⟩
      · rw [hinsts]
        exact hpairs



theorem inv_appendInst (L : Layout) (seq : List Nat) (pairs : List (Nat × Nat))
    (i b : Nat) (hInv : LayoutInv L seq pairs)
    (hv : validOp L (.appendInst i b) = true) :
    LayoutInv (L.append_inst i b) seq (pairs ++ [(i, b)]) := by
  obtain ⟨hchain, hlastb, hmem, hnodup, hpairs⟩ := hInv
  have hfree : (L.insts i).block = none := by
    have h := hv
    simp only [validOp, Bool.and_eq_true, Option.isNone_iff_eq_none,
      Layout.inst_block] at h
    exact h.1
  refine ⟨?_, ?_, ?_, hnodup, ?_⟩
  · rw [(append_inst_links L i b 0).2.2.1]
    exact chainOk_congr L (L.append_inst i b) seq
      (fun k => (append_inst_links L i b k).1) _ hchain
  · rw [(append_inst_links L i b 0).2.2.2]
    exact hlastb
  · intro x
    rw [hmem x]
    unfold Layout.is_block_inserted
    rw [(append_inst_links L i b x).2.1, (append_inst_links L i b 0).2.2.1]
  · intro p hp
    rw [List.mem_append] at hp
    rcases hp with hp | hp
    · have hne : p.1 ≠ i := by
        intro e
        have := hpairs p hp
        rw [e, hfree] at this
        exact Option.noConfusion this
      rw [append_inst_block_of, if_neg hne]
      exact hpairs p hp
    · rw [List.mem_singleton] at hp
      subst hp
      rw [append_inst_block_of, if_pos rfl]

theorem inv_applyOps (ops : List LOp) (L : Layout) (seq : List Nat)
    (pairs : List (Nat × Nat)) (hInv : LayoutInv L seq pairs)
    (hv : validOps L ops = true) :
    LayoutInv (applyOps L ops) (seq ++ blockSeq ops) (pairs ++ instPairs ops) := by
  induction ops generalizing L seq pairs with
  | nil => simpa [applyOps, blockSeq, instPairs] using hInv
  | cons op ops ih =>
      rw [validOps, Bool.and_eq_true] at hv
      cases op with
      | appendBlock b =>
          have h1 := inv_appendBlock L seq pairs b hInv hv.1
          have h2 := ih (L.append_block b) (seq ++ [b]) pairs h1 hv.2
          simpa [applyOps, applyOp, blockSeq, instPairs] using h2
      | appendInst i b =>
          have h1 := inv_appendInst L seq pairs i b hInv hv.1
          have h2 := ih (L.append_inst i b) seq (pairs ++ [(i, b)]) h1 hv.2
          simpa [applyOps, applyOp, blockSeq, instPairs] using h2

theorem blocksFrom_of_chainOk (L : Layout) (seq : List Nat) :
    ∀ (cur : Option Nat) (fuel : Nat), chainOk L cur seq → seq.length ≤ fuel →
      blocksFrom L fuel cur = seq := by
  induction seq with
  | nil =>
      intro cur fuel hc _
      cases fuel with
      | zero => rfl
      | succ n => rw [hc]; rfl
  | cons s rest ih =>
      intro cur fuel hc hf
      obtain ⟨hcur, htail⟩ := hc
      cases fuel with
      | zero => exact absurd hf (by simp)
      | succ n =>
          rw [hcur, blocksFrom, ih _ n htail (by simpa using hf)]

theorem instPairs_mem (ops : List LOp) (i b : Nat) :
    (i, b) ∈ instPairs ops ↔ LOp.appendInst i b ∈ ops := by
  induction ops with
  | nil => simp [instPairs]
  | cons op ops ih =>
      cases op with
      | appendBlock c => simp [instPairs, ih]
      | appendInst j c => simp [instPairs, ih, Prod.ext_iff]



/-- C7: after any sequence of `append_block`/`append_inst` calls whose
`debug_assert!` preconditions all hold (starting from `Layout::new`),
every appended instruction's recorded owning block is the block it was
appended to, and the `Blocks` iterator starting at `first_block` visits
exactly the appended blocks, in append order, each once (the traversal
list equals the duplicate-free append sequence), terminating within any
fuel from the block count up (it reaches `None`). -/
theorem layout_consistency (ops : List LOp)
    (hv : validOps Layout.empty ops = true) :
    (∀ i b, LOp.appendInst i b ∈ ops →
        ((applyOps Layout.empty ops).insts i).block = some b) ∧
    (blockSeq ops).Nodup ∧
    (∀ fuel, (blockSeq ops).length ≤ fuel →
        blocksFrom (applyOps Layout.empty ops) fuel
          (applyOps Layout.empty ops).first_block = blockSeq ops) := by
  have h := inv_applyOps ops Layout.empty [] [] layoutInv_empty hv
  simp only [List.nil_append] at h
  obtain ⟨hchain, hlast, hmem, hnodup, hpairs⟩ := h
  refine ⟨?_, hnodup, ?_⟩
  · intro i b hib
    exact hpairs (i, b) ((instPairs_mem ops i b).mpr hib)
  · intro fuel hf
    exact blocksFrom_of_chainOk _ _ _ fuel hchain hf

/-- Witness for C7 at the call sequence of the repo's `layout` test:
append block 0, append instruction 0 to it, append block 1. -/
theorem layout_consistency_witness :
    validOps Layout.empty
        [LOp.appendBlock 0, .appendInst 0 0, .appendBlock 1] = true ∧
    ((applyOps Layout.empty
        [LOp.appendBlock 0, .appendInst 0 0, .appendBlock 1]).insts 0).block =
      some 0 ∧
    blocksFrom
        (applyOps Layout.empty [LOp.appendBlock 0, .appendInst 0 0, .appendBlock 1])
        2
        (applyOps Layout.empty
          [LOp.appendBlock 0, .appendInst 0 0, .appendBlock 1]).first_block =
      blockSeq [LOp.appendBlock 0, .appendInst 0 0, .appendBlock 1] :=
  ⟨by decide,
   (layout_consistency _ (by decide)).1 0 0 (by decide),
   (layout_consistency _ (by decide)).2.2 2 (by decide)⟩

/-! ## DataFlowGraph (src/jit.rs) -/

inductive Opcode where
  | constant
  | add
  | sub
  | bne
  | phi
deriving DecidableEq

inductive InstData where
  | constant (opcode : Opcode) (value : Nat)
  | binary (opcode : Opcode) (in1 in2 : Nat)
  | bne (opcode : Opcode) (in1 in2 : Nat) (succ1 succ2 : Nat)
  | phi (opcode : Opcode) (inputs : List Nat)
deriving DecidableEq

/-- `InstData::inputs`. -/
def InstData.inputs : InstData → Option (List Nat)
  | .constant _ _ => none
  | .binary _ a b => some [a, b]
  | .bne _ a b _ _ => some [a, b]
  | .phi _ l => some l

/-- The operand list: `inputs` with `None` read as no operands. -/
def inputsList (d : InstData) : List Nat := d.inputs.getD []

structure DataFlowGraph where
  insts : List (Nat × InstData)
  users : Nat → List Nat

def DataFlowGraph.empty : DataFlowGraph := ⟨[], fun _ => []⟩

/-- `BTreeSet::insert`. -/
def insertUser (a : Nat) (l : List Nat) : List Nat :=
  if a ∈ l then l else a :: l

/-- `DataFlowGraph::make_inst`. -/
def DataFlowGraph.make_inst (g : DataFlowGraph) (d : InstData) :
    Nat × DataFlowGraph :=
  let ret := g.insts.length + 1
  let users2 :=
    match d.inputs with
    | none => g.users
    | some ins =>
        ins.foldl
          (fun us inp => fun k => if k = inp then insertUser ret (us k) else us k)
          g.users
  (ret, ⟨(ret, d) :: g.insts, users2⟩)

def applyMakes : List InstData → DataFlowGraph → DataFlowGraph
  | [], g => g
  | d :: ds, g => applyMakes ds (g.make_inst d).2

def DFGInv (g : DataFlowGraph) : Prop :=
  (∀ a, a ∈ g.insts.map Prod.fst ↔ 1 ≤ a ∧ a ≤ g.insts.length) ∧
  (∀ a b, a ∈ g.users b ↔
    ∃ d, g.insts.lookup a = some d ∧ b ∈ inputsList d)

theorem dfgInv_empty : DFGInv DataFlowGraph.empty := by
  constructor
  · intro a
    simp only [DataFlowGraph.empty, List.map_nil, List.not_mem_nil,
      List.length_nil, false_iff]
    omega
  · intro a b
    simp [DataFlowGraph.empty, List.lookup]

theorem lookup_some_mem_keys (l : List (Nat × InstData)) (a : Nat) (d : InstData)
    (h : l.lookup a = some d) : a ∈ l.map Prod.fst := by
  induction l with
  | nil => exact Option.noConfusion h
  | cons p l ih =>
      rw [List.lookup] at h
      by_cases hp : a = p.1
      · simp [hp]
      · have hb : (a == p.1) = false := by simpa using hp
        rw [hb] at h
        simp [ih h]

theorem mem_insertUser (a r : Nat) (l : List Nat) :
    a ∈ insertUser r l ↔ a = r ∨ a ∈ l := by
  unfold insertUser
  split
  · rename_i hr
    constructor
    · exact fun h => Or.inr h
    · rintro (rfl | h)
      · exact hr
      · exact h
  · simp

theorem foldl_insertUser_mem (ins : List Nat) (ret : Nat)
    (us : Nat → List Nat) (a k : Nat) :
    a ∈ (ins.foldl
        (fun us inp => fun j => if j = inp then insertUser ret (us j) else us j)
        us) k ↔
      a ∈ us k ∨ (a = ret ∧ k ∈ ins) := by
  induction ins generalizing us with
  | nil => simp
  | cons i ins ih =>
      rw [List.foldl_cons, ih]
      simp only [List.mem_cons]
      by_cases hk : k = i
      · subst hk
        rw [if_pos rfl, mem_insertUser]
        constructor
        · rintro ((rfl | h) | ⟨rfl, hm⟩)
          · exact Or.inr ⟨rfl, Or.inl rfl⟩
          · exact Or.inl h
          · exact Or.inr ⟨rfl, Or.inr hm⟩
        · rintro (h | ⟨rfl, _⟩)
          · exact Or.inl (Or.inr h)
          · exact Or.inl (Or.inl rfl)
      · rw [if_neg hk]
        constructor
        · rintro (h | ⟨rfl, hm⟩)
          · exact Or.inl h
          · exact Or.inr ⟨rfl, Or.inr hm⟩
        · rintro (h | ⟨rfl, he | hm⟩)
          · exact Or.inl h
          · exact absurd he hk
          · exact Or.inr ⟨rfl, hm⟩

theorem make_inst_inv (g : DataFlowGraph) (d : InstData) (h : DFGInv g) :
    DFGInv (g.make_inst d).2 := by
  obtain ⟨hkeys, husers⟩ := h
  have hlookup : ∀ a, ((g.make_inst d).2.insts.lookup a) =
      if a = g.insts.length + 1 then some d else g.insts.lookup a := by
    intro a
    by_cases ha : a = g.insts.length + 1
    · simp [DataFlowGraph.make_inst, List.lookup, ha]
    · have hbeq : (a == g.insts.length + 1) = false :=
        beq_eq_false_iff_ne.mpr ha
      simp [DataFlowGraph.make_inst, List.lookup, ha, hbeq]
  have hbound : ∀ a b, a ∈ g.users b → a ≤ g.insts.length := by
    intro a b hab
    rcases (husers a b).mp hab with ⟨d0, hl, -⟩
    exact ((hkeys a).mp (lookup_some_mem_keys _ _ _ hl)).2
  have husers2 : ∀ a b, a ∈ (g.make_inst d).2.users b ↔
      (a ∈ g.users b ∨ (a = g.insts.length + 1 ∧ b ∈ inputsList d)) := by
    intro a b
    show a ∈ (match d.inputs with
      | none => g.users
      | some ins => ins.foldl _ g.users) b ↔ _
    cases hd : d.inputs with
    | none => simp [inputsList, hd]
    | some ins => rw [foldl_insertUser_mem]; simp [inputsList, hd]
  constructor
  · intro a
    show a ∈ ((g.insts.length + 1, d) :: g.insts).map Prod.fst ↔
      1 ≤ a ∧ a ≤ ((g.insts.length + 1, d) :: g.insts).length
    rw [List.map_cons, List.mem_cons, hkeys a, List.length_cons]
    constructor
    · rintro (rfl | ⟨h1, h2⟩)
      · omega
      · omega
    · intro ⟨h1, h2⟩
      by_cases ha : a = g.insts.length + 1
      · exact Or.inl ha
      · exact Or.inr ⟨h1, by omega⟩
  · intro a b
    rw [husers2, hlookup]
    by_cases ha : a = g.insts.length + 1
    · subst ha
      rw [if_pos rfl]
      constructor
      · rintro (h | ⟨-, hb⟩)
        · exact absurd (hbound _ _ h) (by omega)
        · exact ⟨d, rfl, hb⟩
      · rintro ⟨d0, hd0, hb⟩
        exact Or.inr ⟨rfl, (Option.some_inj.mp hd0).symm ▸ hb⟩
    · rw [if_neg ha, husers a b]
      constructor
      · rintro (h | ⟨he, -⟩)
        · exact h
        · exact absurd he ha
      · exact fun h => Or.inl h

theorem make_inst_fresh (g : DataFlowGraph) (d : InstData) (h : DFGInv g) :
    (g.make_inst d).1 ∉ g.insts.map Prod.fst := by
  intro hmem
  have := (h.1 _).mp hmem
  have hret : (g.make_inst d).1 = g.insts.length + 1 := rfl
  omega

theorem applyMakes_inv (ds : List InstData) (g : DataFlowGraph)
    (h : DFGInv g) : DFGInv (applyMakes ds g) := by
  induction ds generalizing g with
  | nil => exact h
  | cons d ds ih => exact ih _ (make_inst_inv g d h)

/-- C8: after any sequence of `make_inst` calls on a fresh
`DataFlowGraph`, instruction `a` is in the users set of `b` exactly when
`b` occurs among `a`'s operand instruction ids, and each `make_inst`
call returns an id not previously assigned to any instruction. -/
theorem dfg_users_iff (ds : List InstData) :
    (∀ a b, a ∈ (applyMakes ds DataFlowGraph.empty).users b ↔
      ∃ d, (applyMakes ds DataFlowGraph.empty).insts.lookup a = some d ∧
        b ∈ inputsList d) ∧
    (∀ k, ∀ h : k < ds.length,
      ((applyMakes (ds.take k) DataFlowGraph.empty).make_inst
          (ds.get ⟨k, h⟩)).1 ∉
        (applyMakes (ds.take k) DataFlowGraph.empty).insts.map Prod.fst) :=
  ⟨(applyMakes_inv ds DataFlowGraph.empty dfgInv_empty).2,
   fun k h =>
     make_inst_fresh (applyMakes (ds.take k) DataFlowGraph.empty)
       (ds.get ⟨k, h⟩) (applyMakes_inv _ _ dfgInv_empty)⟩

/-- Witness for C8 at the repo's `data_flow_graph` test sequence: two
constants then an `Add` consuming them; the third call returns the fresh
id 3, and 3 is a user of 1. -/
theorem dfg_users_iff_witness :
    ((2 : Nat) < ([InstData.constant .constant 0, .constant .constant 1,
        .binary .add 1 2] : List InstData).length) ∧
    (((applyMakes ([InstData.constant .constant 0, .constant .constant 1,
          .binary .add 1 2].take 2) DataFlowGraph.empty).make_inst
        ([InstData.constant .constant 0, .constant .constant 1,
          .binary .add 1 2].get ⟨2, by decide⟩)).1 ∉
      (applyMakes ([InstData.constant .constant 0, .constant .constant 1,
          .binary .add 1 2].take 2) DataFlowGraph.empty).insts.map Prod.fst) ∧
    ((3 : Nat) ∈ (applyMakes [InstData.constant .constant 0,
        .constant .constant 1, .binary .add 1 2]
        DataFlowGraph.empty).users 1 ↔
      ∃ d, (applyMakes [InstData.constant .constant 0, .constant .constant 1,
          .binary .add 1 2] DataFlowGraph.empty).insts.lookup 3 = some d ∧
        1 ∈ inputsList d) :=
  ⟨by decide,
   (dfg_users_iff [InstData.constant .constant 0, .constant .constant 1,
      .binary .add 1 2]).2 2 (by decide),
   (dfg_users_iff [InstData.constant .constant 0, .constant .constant 1,
      .binary .add 1 2]).1 3 1⟩

end VM
